import Mathlib

/-!
Verification of the identifier-normalization layer of pilota-build
(`src/pilota-build/src/symbol.rs`): keyword escaping for rendered
symbols, the case-conversion primitives, the role-based naming trait,
and the custom (rustc-derived) snake-case splitter.

Strings are modelled as `List Char`; the character-level case
predicates and conversions are the ASCII ones from Lean core
(`Char.isUpper`, `Char.toLower`, ...), matching the Rust code's
behavior on the ASCII identifiers this layer processes.
-/

namespace PilotaSymbol

/-- The keyword table `KEYWORDS_SET` from `symbol.rs`, transcribed verbatim. -/
def KEYWORDS : List String :=
  ["as", "use", "break", "const", "continue", "crate", "else", "if",
   "enum", "extern", "false", "fn", "for", "impl", "in", "let", "loop",
   "match", "mod", "move", "mut", "pub", "ref", "return", "Self", "self",
   "static", "struct", "super", "trait", "true", "type", "unsafe",
   "where", "while", "abstract", "alignof", "become", "box", "do",
   "final", "macro", "offsetof", "override", "priv", "proc", "pure",
   "sizeof", "typeof", "unsized", "virtual", "yield", "dyn", "async",
   "await", "try"]

/-- `KEYWORDS_SET.contains`: exact-match membership in the keyword table. -/
def is_keyword (s : String) : Bool :=
  KEYWORDS.contains s

/-- The rendering rule of `impl Display for Symbol`: "Self" renders as
"Self_", other keywords get the raw-identifier prefix "r#", anything
else renders unchanged. -/
def symbolDisplay (s : String) : String :=
  if s = "Self" then "Self_"
  else if is_keyword s then "r#" ++ s
  else s

/-- `words.join("_")` as used at the end of `to_snake_case`. -/
def joinWords : List (List Char) → List Char
  | [] => []
  | [w] => w
  | w :: ws => w ++ '_' :: joinWords ws

/-- Rust's `str.split('_')`: `n` separators yield `n + 1` pieces
(so the empty string yields one empty piece). -/
def splitUnderscore : List Char → List (List Char)
  | [] => [[]]
  | c :: rest =>
    if c = '_' then [] :: splitUnderscore rest
    else
      match splitUnderscore rest with
      | [] => [[c]]
      | w :: ws => (c :: w) :: ws

/-- The apostrophe character, as in `to_snake_case`'s check
that the buffer is not a lone lifetime tick. -/
def tickChar : Char := Char.ofNat 39

/-- The inner character loop of `to_snake_case` over one
underscore-free segment: before an uppercase character, if the buffer
is non-empty, is not a lone apostrophe, and the previous character was
not uppercase, the buffer is flushed as a word; every character is
appended in lowercase; the final buffer is flushed after the segment. -/
def segLoop : List Char → List Char → Bool → List (List Char)
  | [], buf, _ => [buf]
  | ch :: rest, buf, lastUpper =>
    if buf ≠ [] ∧ buf ≠ [tickChar] ∧ ch.isUpper ∧ ¬ lastUpper then
      buf :: segLoop rest [ch.toLower] ch.isUpper
    else
      segLoop rest (buf ++ [ch.toLower]) ch.isUpper

/-- The custom snake-case splitter `to_snake_case` in `symbol.rs`
("Taken from rustc."): leading underscores are stripped and pushed as
empty words, the rest is split on underscores, empty segments are
skipped, each remaining segment is split by `segLoop`, and the words
are rejoined with single underscores. -/
def to_snake_case (s : List Char) : List Char :=
  let lead := (s.takeWhile (fun c => c = '_')).map (fun _ => ([] : List Char))
  let rest := s.dropWhile (fun c => c = '_')
  let segWords := (splitUnderscore rest).map
    (fun seg => if seg = [] then [] else segLoop seg [] false)
  joinWords (lead ++ segWords.flatten)

/-- Modelled from the spec: the word-boundary state of the standard
(library-grade) splitter used by the `heck` crate, which is a
dependency of `symbol.rs` and not under `src/`. §4.2 specifies the
standard paths as "library-grade" conversions; the model below follows
the crate's published algorithm and is pinned by the repository's own
unit test (`"IDs".to_snake_case() == "i_ds"`). -/
inductive WordMode
  | boring
  | lowercase
  | uppercase
deriving DecidableEq

/-- Modelled from the spec: the standard splitter's outer split on
non-alphanumeric characters (`heck` crate, not under `src/`). -/
def splitNonAlphanum : List Char → List (List Char)
  | [] => [[]]
  | c :: rest =>
    if c.isAlphanum then
      match splitNonAlphanum rest with
      | [] => [[c]]
      | w :: ws => (c :: w) :: ws
    else [] :: splitNonAlphanum rest

/-- Modelled from the spec: the standard splitter's inner loop over one
separator-free word (`heck` crate, not under `src/`): a boundary is
inserted before a lower-to-upper transition and between an uppercase
run and a following uppercase-then-lowercase pair. -/
def heckWordLoop : List Char → List Char → WordMode → List (List Char)
  | [], _, _ => []
  | [c], buf, _ => [buf ++ [c]]
  | c :: next :: rest, buf, mode =>
    let nextMode :=
      if c.isLower then WordMode.lowercase
      else if c.isUpper then WordMode.uppercase
      else mode
    if nextMode = WordMode.lowercase ∧ next.isUpper then
      (buf ++ [c]) :: heckWordLoop (next :: rest) [] WordMode.boring
    else if mode = WordMode.uppercase ∧ c.isUpper ∧ next.isLower then
      buf :: heckWordLoop (next :: rest) [c] WordMode.boring
    else
      heckWordLoop (next :: rest) (buf ++ [c]) nextMode

/-- Modelled from the spec: the word list produced by the standard
splitter (`heck` crate, not under `src/`). -/
def heckWords (s : List Char) : List (List Char) :=
  ((splitNonAlphanum s).map (fun w => heckWordLoop w [] WordMode.boring)).flatten

/-- Modelled from the spec: the standard snake-case conversion
(`str::to_snake_case` of the `heck` crate, not under `src/`):
lowercased words joined with underscores. -/
def heckSnake (s : List Char) : List Char :=
  joinWords ((heckWords s).map (List.map Char.toLower))

/-- Modelled from the spec: the standard shouty-snake-case conversion
(`str::to_shouty_snake_case` of the `heck` crate, not under `src/`):
uppercased words joined with underscores. -/
def heckShoutySnake (s : List Char) : List Char :=
  joinWords ((heckWords s).map (List.map Char.toUpper))

/-- Modelled from the spec: `heck`'s per-word capitalization — first
character uppercased, the remainder lowercased. -/
def capitalizeWord : List Char → List Char
  | [] => []
  | c :: cs => c.toUpper :: cs.map Char.toLower

/-- Modelled from the spec: the standard UpperCamelCase conversion
(`str::to_upper_camel_case` of the `heck` crate, not under `src/`):
capitalized words concatenated without separators. -/
def heckUpperCamel (s : List Char) : List Char :=
  ((heckWords s).map capitalizeWord).flatten

/-- `upper_camel_ident` from `impl IdentName for &str`:
`self.to_upper_camel_case()`. -/
def upper_camel_ident (s : List Char) : List Char :=
  heckUpperCamel s

/-- `snake_ident` from `impl IdentName for &str`: the custom
`to_snake_case` in nonstandard mode, `heck`'s `to_snake_case`
otherwise. -/
def snake_ident (s : List Char) (nonstandard : Bool) : List Char :=
  if nonstandard then to_snake_case s else heckSnake s

/-- `shouty_snake_case` from `impl IdentName for &str`: the custom
`to_snake_case` followed by `String::to_uppercase` in nonstandard
mode, `heck`'s `to_shouty_snake_case` otherwise. -/
def shouty_snake_case (s : List Char) (nonstandard : Bool) : List Char :=
  if nonstandard then (to_snake_case s).map Char.toUpper else heckShoutySnake s

/-- Default body of `IdentName::struct_ident`. -/
def struct_ident (s : List Char) : List Char := upper_camel_ident s

/-- Default body of `IdentName::enum_ident`. -/
def enum_ident (s : List Char) : List Char := upper_camel_ident s

/-- Default body of `IdentName::mod_ident`. -/
def mod_ident (s : List Char) (nonstandard : Bool) : List Char := snake_ident s nonstandard

/-- Default body of `IdentName::variant_ident`. -/
def variant_ident (s : List Char) : List Char := upper_camel_ident s

/-- Default body of `IdentName::fn_ident`. -/
def fn_ident (s : List Char) (nonstandard : Bool) : List Char := snake_ident s nonstandard

/-- Default body of `IdentName::field_ident`. -/
def field_ident (s : List Char) (nonstandard : Bool) : List Char := snake_ident s nonstandard

/-- Default body of `IdentName::const_ident`. -/
def const_ident (s : List Char) (nonstandard : Bool) : List Char := shouty_snake_case s nonstandard

/-- Default body of `IdentName::trait_ident`. -/
def trait_ident (s : List Char) : List Char := upper_camel_ident s

/-- Default body of `IdentName::newtype_ident`. -/
def newtype_ident (s : List Char) : List Char := upper_camel_ident s

/-- The `Symbol` wrapper: an immutable text value
(`pub struct Symbol(pub FastStr)`). -/
structure Symbol where
  text : List Char

/-- The derived `PartialEq`/`Eq` of `Symbol`: compares the wrapped text. -/
def symbolBeq (a b : Symbol) : Bool :=
  a.text == b.text

/-- The derived `Hash` of `Symbol`: a function of the wrapped text
only (the concrete mixing function is opaque; only its dependence on
`text` alone matters). -/
def symbolHash (a : Symbol) : Nat :=
  a.text.foldl (fun h c => h * 31 + c.toNat) 7

/-- Byte/codepoint-lexicographic three-way comparison on text, as
performed by the derived `Ord` of `Symbol` on its single field. -/
def lexCmp : List Char → List Char → Ordering
  | [], [] => Ordering.eq
  | [], _ :: _ => Ordering.lt
  | _ :: _, [] => Ordering.gt
  | a :: as, b :: bs =>
    if a < b then Ordering.lt
    else if b < a then Ordering.gt
    else lexCmp as bs

/-- The derived `Ord`/`PartialOrd` of `Symbol`: lexicographic
comparison of the wrapped text. -/
def symbolCmp (a b : Symbol) : Ordering :=
  lexCmp a.text b.text

theorem takeWhile_underscore_append (k : Nat) (l : List Char) :
    (List.replicate k '_' ++ l).takeWhile (fun x => decide (x = '_')) =
      List.replicate k '_' ++ l.takeWhile (fun x => decide (x = '_')) := by
  induction k with
  | zero => simp
  | succ k ih => simp [List.replicate_succ, List.takeWhile_cons, ih]

theorem dropWhile_underscore_append (k : Nat) (l : List Char) :
    (List.replicate k '_' ++ l).dropWhile (fun x => decide (x = '_')) =
      l.dropWhile (fun x => decide (x = '_')) := by
  induction k with
  | zero => simp
  | succ k ih => simp [List.replicate_succ, List.dropWhile_cons, ih]

theorem segLoop_ne_nil (l buf : List Char) (b : Bool) : segLoop l buf b ≠ [] := by
  induction l generalizing buf b with
  | nil => simp [segLoop]
  | cons ch rest ih =>
    rw [segLoop]
    split
    · simp
    · exact ih _ _

theorem splitUnderscore_ne_nil (l : List Char) : splitUnderscore l ≠ [] := by
  cases l with
  | nil => simp [splitUnderscore]
  | cons c rest =>
    rw [splitUnderscore]
    split
    · simp
    · split <;> simp

theorem splitUnderscore_cons (c : Char) (t : List Char) (h : c ≠ '_') :
    ∃ w ws, splitUnderscore (c :: t) = (c :: w) :: ws := by
  cases hsp : splitUnderscore t with
  | nil => exact absurd hsp (splitUnderscore_ne_nil t)
  | cons w ws =>
    refine ⟨w, ws, ?_⟩
    rw [splitUnderscore, if_neg h, hsp]

theorem joinWords_cons_cons (w w' : List Char) (ws : List (List Char)) :
    joinWords (w :: w' :: ws) = w ++ '_' :: joinWords (w' :: ws) := rfl

theorem joinWords_replicate_nil (k : Nat) (ws : List (List Char)) (h : ws ≠ []) :
    joinWords (List.replicate k [] ++ ws) = List.replicate k '_' ++ joinWords ws := by
  induction k with
  | zero => simp
  | succ k ih =>
    rw [List.replicate_succ, List.cons_append]
    cases hkw : List.replicate k ([] : List Char) ++ ws with
    | nil => exact absurd (List.append_eq_nil.mp hkw).2 h
    | cons a l =>
      rw [joinWords_cons_cons, ← hkw, ih]
      simp [List.replicate_succ]

theorem snakeWords_ne_nil (c : Char) (t : List Char) (h : c ≠ '_') :
    ((splitUnderscore (c :: t)).map
      (fun seg => if seg = [] then [] else segLoop seg [] false)).flatten ≠ [] := by
  obtain ⟨w, ws, hsp⟩ := splitUnderscore_cons c t h
  rw [hsp]
  simp only [List.map_cons, List.flatten_cons]
  intro he
  have h1 := (List.append_eq_nil.mp he).1
  rw [if_neg (List.cons_ne_nil c w)] at h1
  exact segLoop_ne_nil _ _ _ h1

/-- C5 counterexample: an input that is a single underscore has one
leading underscore, but the nonstandard snake conversion of it is
empty, so the leading-underscore count is not preserved in the
rejoined output. -/
theorem leading_underscore_count_counterexample :
    to_snake_case ['_'] = [] ∧
    ((['_'] : List Char).takeWhile (fun x => decide (x = '_'))).length = 1 ∧
    ((to_snake_case ['_']).takeWhile (fun x => decide (x = '_'))).length = 0 := by
  exact ⟨by decide, by decide, by decide⟩

/-- C5 (amended): `snake("_foo", nonstandard=true)` yields "_foo", and
whenever the input contains a non-underscore character, the stripped
leading underscores are pushed as empty words and re-emitted, so the
run of leading underscores is preserved verbatim. (For inputs that are
underscores only, the n empty words rejoin to n−1 underscores.) -/
theorem leading_underscores_preserved :
    to_snake_case "_foo".toList = "_foo".toList ∧
    ∀ (k : Nat) (c : Char) (t : List Char), c ≠ '_' →
      to_snake_case (List.replicate k '_' ++ c :: t) =
        List.replicate k '_' ++ to_snake_case (c :: t) := by
  refine ⟨by decide, ?_⟩
  intro k c t hc
  have hpc : (decide (c = '_')) = false := by simp [hc]
  simp only [to_snake_case]
  rw [takeWhile_underscore_append, dropWhile_underscore_append,
      List.takeWhile_cons, List.dropWhile_cons, hpc]
  simp only [Bool.false_eq_true, if_neg, ite_false, List.append_nil,
    List.map_append, List.map_replicate]
  rw [joinWords_replicate_nil _ _ (snakeWords_ne_nil c t hc)]
  simp

/-- Witness for C5 (amended) at k = 1, input "_foo". -/
theorem leading_underscores_preserved_witness :
    to_snake_case (List.replicate 1 '_' ++ 'f' :: ['o', 'o']) =
      List.replicate 1 '_' ++ to_snake_case ('f' :: ['o', 'o']) :=
  leading_underscores_preserved.2 1 'f' ['o', 'o'] (by decide)

theorem flatten_replicate_nil {α : Type} (n : Nat) :
    (List.replicate n ([] : List α)).flatten = [] := by
  induction n with
  | zero => rfl
  | succ n ih => simp [List.replicate_succ, ih]

theorem splitNonAlphanum_underscores (n : Nat) :
    splitNonAlphanum (List.replicate n '_') = List.replicate (n + 1) [] := by
  induction n with
  | zero => rfl
  | succ n ih =>
    rw [List.replicate_succ, splitNonAlphanum, if_neg (by decide), ih]
    simp [List.replicate_succ]

theorem heckWords_underscores (n : Nat) :
    heckWords (List.replicate n '_') = [] := by
  rw [heckWords, splitNonAlphanum_underscores, List.map_replicate]
  rw [show heckWordLoop [] [] WordMode.boring = [] from rfl]
  exact flatten_replicate_nil (n + 1)

theorem to_snake_case_underscores (n : Nat) :
    to_snake_case (List.replicate (n + 1) '_') = List.replicate n '_' := by
  have h1 := takeWhile_underscore_append (n + 1) ([] : List Char)
  have h2 := dropWhile_underscore_append (n + 1) ([] : List Char)
  simp only [List.append_nil, List.takeWhile_nil, List.dropWhile_nil] at h1 h2
  simp only [to_snake_case, h1, h2, List.map_replicate]
  rw [show splitUnderscore [] = [[]] from rfl]
  simp only [List.map_cons, List.map_nil, ite_true, if_pos]
  rw [show (([] : List (List Char)) :: []).flatten = [] from rfl, List.append_nil]
  rw [List.replicate_succ']
  rw [joinWords_replicate_nil n [[]] (by simp)]
  rw [show joinWords [[]] = [] from rfl, List.append_nil]

/-- C6 counterexample: the input "__" consists solely of separator
characters, yet the nonstandard snake primitive returns "_", not the
empty string. -/
theorem separator_only_counterexample :
    snake_ident ['_', '_'] true = ['_'] ∧ snake_ident ['_', '_'] true ≠ [] := by
  exact ⟨by decide, by decide⟩

/-- C6 (amended): every case-conversion primitive is a total function;
empty input yields empty output for all of them; input consisting
solely of underscores yields empty output for `upper_camel` and for
the standard-mode snake and shouty-snake paths, while the nonstandard
snake and shouty-snake paths turn n underscores into n−1 underscores
(the n preserved empty words rejoined with separators). -/
theorem primitives_on_empty_and_separator_inputs :
    upper_camel_ident [] = [] ∧
    (∀ b, snake_ident [] b = []) ∧
    (∀ b, shouty_snake_case [] b = []) ∧
    (∀ n, upper_camel_ident (List.replicate n '_') = []) ∧
    (∀ n, snake_ident (List.replicate n '_') false = []) ∧
    (∀ n, shouty_snake_case (List.replicate n '_') false = []) ∧
    (∀ n, snake_ident (List.replicate (n + 1) '_') true = List.replicate n '_') ∧
    (∀ n, shouty_snake_case (List.replicate (n + 1) '_') true = List.replicate n '_') := by
  refine ⟨rfl, ?_, ?_, ?_, ?_, ?_, ?_, ?_⟩
  · intro b
    cases b <;> rfl
  · intro b
    cases b <;> rfl
  · intro n
    rw [upper_camel_ident, heckUpperCamel, heckWords_underscores]
    rfl
  · intro n
    rw [snake_ident, if_neg (by simp), heckSnake, heckWords_underscores]
    rfl
  · intro n
    rw [shouty_snake_case, if_neg (by simp), heckShoutySnake, heckWords_underscores]
    rfl
  · intro n
    rw [snake_ident, if_pos rfl, to_snake_case_underscores]
  · intro n
    rw [shouty_snake_case, if_pos rfl, to_snake_case_underscores, List.map_replicate]
    rw [show '_'.toUpper = '_' from by decide]

theorem lexCmp_eq_iff (as : List Char) : ∀ bs, lexCmp as bs = Ordering.eq ↔ as = bs := by
  induction as with
  | nil => intro bs; cases bs <;> simp [lexCmp]
  | cons a as ih =>
    intro bs
    cases bs with
    | nil => simp [lexCmp]
    | cons b bs =>
      rw [lexCmp]
      split
      next hab => simp [ne_of_lt hab]
      next hab =>
        split
        next hba => simp [(ne_of_lt hba).symm]
        next hba =>
          have heq : a = b := le_antisymm (not_lt.mp hba) (not_lt.mp hab)
          subst heq
          simp [ih]

theorem lexCmp_lt_iff (as : List Char) :
    ∀ bs, lexCmp as bs = Ordering.lt ↔ List.Lex (· < ·) as bs := by
  induction as with
  | nil =>
    intro bs
    cases bs with
    | nil => simp [lexCmp]
    | cons b bs => simp [lexCmp]; exact List.Lex.nil
  | cons a as ih =>
    intro bs
    cases bs with
    | nil => simp [lexCmp]
    | cons b bs =>
      rw [lexCmp]
      split
      next hab => exact iff_of_true rfl (List.Lex.rel hab)
      next hab =>
        split
        next hba =>
          refine iff_of_false (by simp) ?_
          intro hlex
          cases hlex with
          | cons h => exact lt_irrefl a hba
          | rel h => exact lt_asymm h hba
        next hba =>
          have heq : a = b := le_antisymm (not_lt.mp hba) (not_lt.mp hab)
          subst heq
          rw [ih]
          constructor
          · exact List.Lex.cons
          · intro hlex
            cases hlex with
            | cons h => exact h
            | rel h => exact absurd h (lt_irrefl a)

theorem lexCmp_trichotomy (as bs : List Char) :
    lexCmp as bs = Ordering.lt ∨ lexCmp as bs = Ordering.eq ∨ lexCmp as bs = Ordering.gt := by
  cases lexCmp as bs <;> simp

/-- C9: Symbol equality, hashing and ordering are determined purely by
the wrapped text: two Symbols are equal (in the derived `PartialEq`
sense) iff their texts are equal, equal Symbols hash equally, and the
derived comparison is exactly codepoint-lexicographic order on the
text: it returns `eq` iff the texts are equal, `lt` iff the first text
is lexicographically smaller, and "less or equal" iff the first text
is lexicographically at most the second. -/
theorem symbol_eq_hash_ord :
    (∀ a b : Symbol, symbolBeq a b = true ↔ a = b) ∧
    (∀ a b : Symbol, a = b → symbolHash a = symbolHash b) ∧
    (∀ a b : Symbol, symbolCmp a b = Ordering.eq ↔ a = b) ∧
    (∀ a b : Symbol, symbolCmp a b = Ordering.lt ↔ List.Lex (· < ·) a.text b.text) ∧
    (∀ a b : Symbol, symbolCmp a b ≠ Ordering.gt ↔
      (a.text = b.text ∨ List.Lex (· < ·) a.text b.text)) := by
  have hmk : ∀ a b : Symbol, a.text = b.text ↔ a = b := by
    intro a b
    cases a
    cases b
    simp
  refine ⟨?_, ?_, ?_, ?_, ?_⟩
  · intro a b
    rw [symbolBeq, beq_iff_eq, hmk]
  · intro a b h
    rw [h]
  · intro a b
    rw [symbolCmp, lexCmp_eq_iff, hmk]
  · intro a b
    rw [symbolCmp, lexCmp_lt_iff]
  · intro a b
    rw [symbolCmp]
    constructor
    · intro hne
      rcases lexCmp_trichotomy a.text b.text with h | h | h
      · exact Or.inr ((lexCmp_lt_iff a.text b.text).mp h)
      · exact Or.inl ((lexCmp_eq_iff a.text b.text).mp h)
      · exact absurd h hne
    · intro h hgt
      rcases h with h | h
      · rw [(lexCmp_eq_iff a.text b.text).mpr h] at hgt
        cases hgt
      · rw [(lexCmp_lt_iff a.text b.text).mpr h] at hgt
        cases hgt

/-- Witness for C9 at the concrete symbols "a" and "b". -/
theorem symbol_eq_hash_ord_witness :
    symbolBeq (Symbol.mk ['a']) (Symbol.mk ['a']) = true ∧
    symbolHash (Symbol.mk ['a']) = symbolHash (Symbol.mk ['a']) ∧
    symbolCmp (Symbol.mk ['a']) (Symbol.mk ['b']) = Ordering.lt :=
  ⟨(symbol_eq_hash_ord.1 (Symbol.mk ['a']) (Symbol.mk ['a'])).mpr rfl,
   symbol_eq_hash_ord.2.1 (Symbol.mk ['a']) (Symbol.mk ['a']) rfl,
   (symbol_eq_hash_ord.2.2.2.1 (Symbol.mk ['a']) (Symbol.mk ['b'])).mpr
     (List.Lex.rel (by decide))⟩

theorem toNat_ofNat_valid (n : Nat) (h : n < 55296) : (Char.ofNat n).toNat = n := by
  rw [Char.ofNat, dif_pos (Or.inl h)]
  simp [Char.ofNatAux, Char.toNat, UInt32.toNat]

theorem isUpper_iff (c : Char) : c.isUpper = true ↔ 65 ≤ c.toNat ∧ c.toNat ≤ 90 := by
  simp [Char.isUpper, UInt32.le_def, BitVec.le_def, Char.toNat, UInt32.toNat]

theorem toLower_not_upper (c : Char) : (Char.toLower c).isUpper = false := by
  rw [Char.toLower]
  split
  next h =>
    have h2 : (Char.ofNat (c.toNat + 32)).toNat = c.toNat + 32 := by
      apply toNat_ofNat_valid
      omega
    rw [Bool.eq_false_iff]
    intro hu
    rw [isUpper_iff, h2] at hu
    omega
  next h =>
    rw [Bool.eq_false_iff]
    intro hu
    rw [isUpper_iff] at hu
    exact h ⟨hu.1, hu.2⟩

theorem mem_joinWords {c : Char} :
    ∀ ws : List (List Char), c ∈ joinWords ws → c = '_' ∨ ∃ w ∈ ws, c ∈ w := by
  intro ws
  induction ws with
  | nil => intro h; simp [joinWords] at h
  | cons w ws ih =>
    cases ws with
    | nil =>
      intro h
      rw [show joinWords [w] = w from rfl] at h
      exact Or.inr ⟨w, by simp, h⟩
    | cons w' ws' =>
      rw [joinWords_cons_cons]
      intro h
      rcases List.mem_append.mp h with h | h
      · exact Or.inr ⟨w, by simp, h⟩
      · rcases List.mem_cons.mp h with h | h
        · exact Or.inl h
        · rcases ih h with h | ⟨w'', hw'', hc⟩
          · exact Or.inl h
          · exact Or.inr ⟨w'', by simp [hw''], hc⟩

theorem segLoop_chars (l : List Char) :
    ∀ buf b w, w ∈ segLoop l buf b → ∀ c ∈ w, c ∈ buf ∨ ∃ d ∈ l, c = d.toLower := by
  induction l with
  | nil =>
    intro buf b w hw c hc
    simp [segLoop] at hw
    subst hw
    exact Or.inl hc
  | cons ch rest ih =>
    intro buf b w hw c hc
    rw [segLoop] at hw
    split at hw
    · rcases List.mem_cons.mp hw with h | h
      · subst h
        exact Or.inl hc
      · rcases ih _ _ _ h c hc with h' | ⟨d, hd, he⟩
        · simp at h'
          exact Or.inr ⟨ch, by simp, h'⟩
        · exact Or.inr ⟨d, by simp [hd], he⟩
    · rcases ih _ _ _ hw c hc with h' | ⟨d, hd, he⟩
      · rcases List.mem_append.mp h' with h'' | h''
        · exact Or.inl h''
        · simp at h''
          exact Or.inr ⟨ch, by simp, h''⟩
      · exact Or.inr ⟨d, by simp [hd], he⟩

theorem splitUnderscore_chars :
    ∀ l : List Char, ∀ seg ∈ splitUnderscore l, ∀ c ∈ seg, c ∈ l := by
  intro l
  induction l with
  | nil =>
    intro seg hseg c hc
    simp [splitUnderscore] at hseg
    subst hseg
    simp at hc
  | cons a rest ih =>
    intro seg hseg c hc
    rw [splitUnderscore] at hseg
    split at hseg
    · rcases List.mem_cons.mp hseg with h | h
      · subst h
        simp at hc
      · exact List.mem_cons_of_mem a (ih seg h c hc)
    · cases hsp : splitUnderscore rest with
      | nil => exact absurd hsp (splitUnderscore_ne_nil rest)
      | cons w ws =>
        rw [hsp] at hseg
        rcases List.mem_cons.mp hseg with h | h
        · subst h
          rcases List.mem_cons.mp hc with h' | h'
          · subst h'
            simp
          · have hw : w ∈ splitUnderscore rest := by
              rw [hsp]
              simp
            exact List.mem_cons_of_mem a (ih w hw c h')
        · have hsm : seg ∈ splitUnderscore rest := by
            rw [hsp]
            simp [h]
          exact List.mem_cons_of_mem a (ih seg hsm c hc)

/-- C10: every character in the output of the custom (nonstandard)
snake-case algorithm is a non-uppercase character: either an
underscore separator, or the lowercase form of some input character. -/
theorem snake_output_lowercase (s : List Char) :
    ∀ c ∈ to_snake_case s, c.isUpper = false ∧ (c = '_' ∨ ∃ d ∈ s, c = d.toLower) := by
  intro c hc
  have key : c = '_' ∨ ∃ d ∈ s, c = d.toLower := by
    simp only [to_snake_case] at hc
    rcases mem_joinWords _ hc with h | ⟨w, hw, hcw⟩
    · exact Or.inl h
    rcases List.mem_append.mp hw with h | h
    · rcases List.mem_map.mp h with ⟨x, _, rfl⟩
      simp at hcw
    · rcases List.mem_flatten.mp h with ⟨l, hl, hwl⟩
      rcases List.mem_map.mp hl with ⟨seg, hseg, rfl⟩
      by_cases hne : seg = []
      · rw [if_pos hne] at hwl
        simp at hwl
      rw [if_neg hne] at hwl
      rcases segLoop_chars seg [] false w hwl c hcw with h' | ⟨d, hd, he⟩
      · simp at h'
      have hdrest := splitUnderscore_chars _ seg hseg d hd
      have hds : d ∈ s := (List.dropWhile_sublist _).subset hdrest
      exact Or.inr ⟨d, hds, he⟩
  rcases key with h | ⟨d, hd, he⟩
  · subst h
    exact ⟨by decide, Or.inl rfl⟩
  · subst he
    exact ⟨toLower_not_upper d, Or.inr ⟨d, hd, rfl⟩⟩

/-- Witness for C10 at the input "A" whose output is "a". -/
theorem snake_output_lowercase_witness :
    ('a').isUpper = false ∧ ('a' = '_' ∨ ∃ d ∈ ['A'], 'a' = d.toLower) :=
  snake_output_lowercase ['A'] 'a' (by decide)

/-- C1: rendering an Identifier/Symbol built from text `t` yields
"Self_" when `t` is exactly "Self"; otherwise "r#" ++ t when `t` is in
the keyword table; otherwise `t` unchanged — and the "Self" special
case takes precedence even though "Self" is itself a keyword. -/
theorem symbol_display_rule :
    is_keyword "Self" = true ∧
    symbolDisplay "Self" = "Self_" ∧
    (∀ t : String, t ≠ "Self" → is_keyword t = true → symbolDisplay t = "r#" ++ t) ∧
    (∀ t : String, is_keyword t = false → symbolDisplay t = t) := by
  refine ⟨by decide, by decide, ?_, ?_⟩
  · intro t hne hk
    simp [symbolDisplay, hne, hk]
  · intro t hk
    have hne : t ≠ "Self" := by
      intro he
      subst he
      exact absurd hk (by decide)
    simp [symbolDisplay, hne, hk]

/-- Witness for C1 at the keyword "fn" and the plain text "foo". -/
theorem symbol_display_rule_witness :
    symbolDisplay "fn" = "r#fn" ∧ symbolDisplay "foo" = "foo" :=
  ⟨symbol_display_rule.2.2.1 "fn" (by decide) (by decide),
   symbol_display_rule.2.2.2 "foo" (by decide)⟩

/-- C2: `snake("IDs", nonstandard=true)` returns "ids" while
`snake("IDs", nonstandard=false)` returns the generic splitter's
"i_ds"; the two modes disagree on this input. -/
theorem snake_modes_disagree :
    snake_ident "IDs".toList true = "ids".toList ∧
    snake_ident "IDs".toList false = "i_ds".toList ∧
    snake_ident "IDs".toList true ≠ snake_ident "IDs".toList false := by
  exact ⟨by decide, by decide, by decide⟩

/-- C3 counterexample: the field-name role applied to "UserID" with
nonstandard=true yields exactly "user_id", refuting the claim that it
does not yield "user_id". -/
theorem field_userid_yields_user_id :
    field_ident "UserID".toList true = "user_id".toList := by decide

/-- C3 (amended): the field-name role on "UserID" with
nonstandard=true yields "user_id": the acronym run "ID" is kept as the
single word "id" (not split into "i_d"), but a word boundary is still
inserted at the lower-to-upper transition before the acronym, so the
result is not "userid". -/
theorem field_userid_amended :
    field_ident "UserID".toList true = "user_id".toList ∧
    field_ident "UserID".toList true ≠ "userid".toList ∧
    field_ident "UserID".toList true ≠ "user_i_d".toList := by
  exact ⟨by decide, by decide, by decide⟩

/-- C4: for every string, the nonstandard shouty-snake path is exactly
the nonstandard snake path followed by uppercasing. -/
theorem shouty_nonstandard_is_uppercased_snake (s : List Char) :
    shouty_snake_case s true = (snake_ident s true).map Char.toUpper := by
  simp [shouty_snake_case, snake_ident]

/-- C7: `upper_camel` is idempotent on inputs already in
UpperCamelCase (inputs the conversion leaves unchanged). -/
theorem upper_camel_idempotent (x : List Char) (h : upper_camel_ident x = x) :
    upper_camel_ident (upper_camel_ident x) = upper_camel_ident x := by
  rw [h]
  exact h

/-- Witness for C7 at the UpperCamelCase input "FooBar". -/
theorem upper_camel_idempotent_witness :
    upper_camel_ident (upper_camel_ident "FooBar".toList) =
      upper_camel_ident "FooBar".toList :=
  upper_camel_idempotent "FooBar".toList (by decide)

/-- C8: the role methods map to the base transforms exactly as the
role table specifies: struct, enum, trait, newtype and variant roles
are `upper_camel`; module, function and field roles are `snake`;
the constant role is `shouty_snake`. -/
theorem role_methods_table (s : List Char) (b : Bool) :
    struct_ident s = upper_camel_ident s ∧
    enum_ident s = upper_camel_ident s ∧
    trait_ident s = upper_camel_ident s ∧
    newtype_ident s = upper_camel_ident s ∧
    variant_ident s = upper_camel_ident s ∧
    mod_ident s b = snake_ident s b ∧
    fn_ident s b = snake_ident s b ∧
    field_ident s b = snake_ident s b ∧
    const_ident s b = shouty_snake_case s b :=
  ⟨rfl, rfl, rfl, rfl, rfl, rfl, rfl, rfl, rfl⟩

end PilotaSymbol
